import Mathlib

/-!
Verification of the git-history-driven version and changelog derivation
engine of the factorio packaging toolkit.

The source operates on a single linear branch of a git repository.  We
embed that world shallowly:

* a `Commit` carries the facts the scripts query from git: the hash, the
  subject and body of the commit message, the committer date (`%cs`), a
  flag saying whether the commit touches the manifest (`package.json`,
  i.e. whether it appears in `git log --follow -- package.json`), and the
  version string readable from the manifest content at that commit
  (`none` models both a missing file and unparsable JSON or a missing or
  non-string `version` field - the scripts treat all of these the same
  way, as "could not get version");
* a history is a `List Commit`, newest first, exactly the order of
  `git log`; the last element is the root commit, and the parent of a
  commit is the next element of the list (`git rev-parse hash^`);
* JavaScript `String.prototype.startsWith` / `endsWith` are embedded as
  prefix / suffix tests on the character lists of Lean strings;
* the JavaScript template literal that turns numbers into decimal
  strings is embedded as `natChars` (structural recursion on a fuel
  argument so that everything evaluates by kernel reduction).

Commit subjects produced by `git log --pretty=format:%s` are single
lines; the embedding therefore does not model the newline-sensitivity of
the anchors in the source's regular expressions.
-/

/-- Decimal digit character, `digitChar d` is the character for digit
`d` (only used with `d < 10`). -/
def digitChar (d : Nat) : Char := Char.ofNat (48 + d)

/-- Little-endian digit expansion with explicit fuel; `natCharsRevAux f n`
is the reversed decimal representation of `n` provided `n ≤ f`. -/
def natCharsRevAux : Nat → Nat → List Char
  | 0, _ => []
  | f + 1, n => if n = 0 then [] else digitChar (n % 10) :: natCharsRevAux f (n / 10)

/-- The decimal representation of a natural number as a character list,
matching what a JavaScript template literal produces for a non-negative
integer. -/
def natChars (n : Nat) : List Char :=
  if n = 0 then [('0')] else (natCharsRevAux n n).reverse

/-- The string `"M.m.p"`, as built by the source's template literal
interpolating the three numeric components. -/
def versionString (a b p : Nat) : String :=
  ⟨natChars a ++ '.' :: natChars b ++ '.' :: natChars p⟩

/-- The series prefix string `"M.m."` built by the source's
template literal in `main`. -/
def seriesPfx (a b : Nat) : String :=
  ⟨natChars a ++ '.' :: natChars b ++ [('.')]⟩

/-- JavaScript startsWith: `pre.data` is a list prefix of
`s.data`. -/
def strStartsWith (s pre : String) : Bool := decide (pre.data <+: s.data)

/-- JavaScript endsWith: `post.data` is a list suffix of
`s.data`. -/
def strEndsWith (s post : String) : Bool := decide (post.data <:+ s.data)

/-- A commit of the linear history, carrying the facts the scripts read
from git (see the module docstring). -/
structure Commit where
  hash : String
  subject : String
  body : String
  date : String
  touchesManifest : Bool
  manifestVersion : Option String
deriving DecidableEq

/-- A semantic version, major, minor and patch, with non-negative
integer components. -/
structure SemVer where
  major : Nat
  minor : Nat
  patch : Nat
deriving DecidableEq

/-- Serialize a `SemVer` to its `"M.m.p"` string. -/
def serializeSemVer (v : SemVer) : String := versionString v.major v.minor v.patch

/- ## The version-bump commit pattern

The sources test commit subjects against the anchored regular expression
matching `chore: Update version to ` followed by `digits.digits.digits`
(`versionCommitRegex` in `changelog-data-service.ts` and in the
packaging script; the capture group of one variant is irrelevant to
matching).  An anchored match of that expression is equivalent to: the
subject is the literal marker followed by a string that splits on `.`
into exactly three non-empty all-digit groups. -/

/-- JavaScript `\d`: an ASCII decimal digit. -/
def isDigitChar (c : Char) : Bool := decide ('0' ≤ c) && decide (c ≤ '9')

/-- Split a character list on `.` separators (every separator splits;
`n` separators yield `n + 1` groups, possibly empty). -/
def splitOnDot : List Char → List (List Char)
  | [] => [[]]
  | c :: rest =>
    if c = '.' then [] :: splitOnDot rest
    else
      match splitOnDot rest with
      | [] => [[c]]
      | g :: gs => (c :: g) :: gs

/-- Embedded digit-group pattern: a non-empty group of digits. -/
def isDigitGroup (l : List Char) : Bool := !l.isEmpty && l.all isDigitChar

/-- Anchored `\d+\.\d+\.\d+`. -/
def isSemverChars (l : List Char) : Bool :=
  match splitOnDot l with
  | [g1, g2, g3] => isDigitGroup g1 && isDigitGroup g2 && isDigitGroup g3
  | _ => false

/-- The fixed marker of administrative version-bump commit subjects. -/
def versionMsgMarker : String := "chore: Update version to "

/-- The commit message written by the reconciliation step:
`git commit` with the fixed message template: the marker followed by
the adopted version string. -/
def versionCommitMessage (v : String) : String :=
  ⟨versionMsgMarker.data ++ v.data⟩

/-- Anchored match of `versionCommitRegex`
(`^chore: Update version to \d+\.\d+\.\d+$`). -/
def isVersionCommitSubject (s : String) : Bool :=
  decide (versionMsgMarker.data <+: s.data)
    && isSemverChars (s.data.drop versionMsgMarker.data.length)

/- ## The conventional-commit classifier

`conventionalCommitRegex` in the sources is the anchored expression
`type(scope)!: message` with a bare-word type (`\w+`), an optional
parenthesized scope (`[^)]+` - non-empty, no closing parenthesis), an
optional `!`, then the literal `: ` and the free-text message (`.*`).
Because a word character can never match `(`, `!` or `:`, the greedy
`\w+` never needs to backtrack, and the optional scope group either
matches up to the first `)` or fails; the regular expression is
therefore equivalent to the deterministic left-to-right parse below. -/

/-- The pieces captured by `conventionalCommitRegex`. -/
structure ConventionalParts where
  ctype : String
  scope : Option String
  bang : Bool
  message : String
deriving DecidableEq

/-- JavaScript `\w`: ASCII letters, digits and underscore. -/
def isWordChar (c : Char) : Bool := c.isAlphanum || decide (c = '_')

/-- The optional scope group `(scope)` with `scope` matching `[^)]+`:
consumed only when the input starts with `(`, a closing `)` exists, and
the scope in between is non-empty; otherwise nothing is consumed (and
the remaining input can then only match when it starts the `(!?): `
tail, exactly as the regular expression behaves when the optional group
fails). -/
def scopeSplit (r1 : List Char) : Option (List Char) × List Char :=
  match r1 with
  | '(' :: r =>
    match r.dropWhile (fun c => decide (c ≠ (')'))) with
    | ')' :: r2 =>
      if (r.takeWhile (fun c => decide (c ≠ (')')))).isEmpty then (none, r1)
      else (some (r.takeWhile (fun c => decide (c ≠ (')')))), r2)
    | _ => (none, r1)
  | _ => (none, r1)

/-- The optional `!` breaking-change marker. -/
def bangSplit (r2 : List Char) : Bool × List Char :=
  match r2 with
  | '!' :: r3 => (true, r3)
  | r3 => (false, r3)

/-- Anchored match of `conventionalCommitRegex`, returning the captured
type, optional scope, breaking-change flag and message. -/
def parseConventional (s : String) : Option ConventionalParts :=
  let ty := s.data.takeWhile isWordChar
  if ty.isEmpty then none
  else
    let sb := scopeSplit (s.data.dropWhile isWordChar)
    let bb := bangSplit sb.2
    match bb.2 with
    | ':' :: ' ' :: msg =>
      some ⟨⟨ty⟩, sb.1.map (fun d => ⟨d⟩), bb.1, ⟨msg⟩⟩
    | _ => none

/-- The fixed `commitTypeToFactorioCategory` lookup table. -/
def commitTypeToFactorioCategory : List (String × String) :=
  [(("feat"), ("Features")), (("fix"), ("Bugfixes")), (("perf"), ("Optimizations")),
   (("docs"), ("Info")), (("style"), ("Changes")), (("refactor"), ("Changes")),
   (("test"), ("Changes")), (("chore"), ("Changes")), (("build"), ("Changes")),
   (("ci"), ("Changes")), (("revert"), ("Changes"))]

/-- The source indexes `commitTypeToFactorioCategory` and falls back
to the default: the category for
a commit type, defaulting to `Changes`. -/
def categoryForType (ty : String) : String :=
  (commitTypeToFactorioCategory.lookup ty).getD (("Changes"))

/-- One classified changelog entry: optional scope, message, body. -/
structure ClassifiedEntry where
  scope : Option String
  message : String
  body : String
deriving DecidableEq

/-- The loop body of `getCategorizedEntries`: `none` when the subject is
an administrative version-bump commit (excluded), otherwise the category
and entry derived from the conventional-commit parse, with the whole
subject under the default category when the parse fails. -/
def classifySubject (subject body : String) : Option (String × ClassifiedEntry) :=
  if isVersionCommitSubject subject then none
  else
    match parseConventional subject with
    | some parts => some (categoryForType parts.ctype, ⟨parts.scope, parts.message, body⟩)
    | none => some ((("Changes")), ⟨none, subject, body⟩)

/-- Embedding of `getCategorizedEntries` over the commits of a log range (newest
first).  The source groups the resulting `(category, entry)` pairs into
an object keyed by category, preserving encounter order inside each
category; we keep the flat sequence of pairs - the grouping is a pure
reindexing, and `Object.keys(r).some(cat => r[cat].length > 0)` is
exactly "the sequence is non-empty". -/
def getCategorizedEntries (commits : List Commit) : List (String × ClassifiedEntry) :=
  commits.filterMap (fun c => classifySubject c.subject c.body)

/- ## The version series resolver -/

/-- The walk of `findBaseCommitForVersionSeries` over the newest-first
history.  The source iterates over `git log --follow -- package.json`
(the manifest-touching commits, newest first) and reads, for each, the
version at the commit and at its parent (`git rev-parse hash^`, i.e. the
next commit of the linear history whether or not it touches the
manifest); we walk the full history and skip non-touching commits,
which visits exactly the same commits with the same parents. -/
def findBaseGo (pfx : String) : List Commit → Option String
  | [] => none
  | c :: rest =>
    if c.touchesManifest then
      match c.manifestVersion with
      | none => findBaseGo pfx rest
      | some v =>
        if strStartsWith v pfx then
          let parentVersionMatchesSeries : Bool :=
            match rest.head? with
            | none => false
            | some parent =>
              match parent.manifestVersion with
              | none => false
              | some pv => strStartsWith pv pfx
          if rest.isEmpty || !parentVersionMatchesSeries || strEndsWith v (".0") then
            some c.hash
          else findBaseGo pfx rest
        else findBaseGo pfx rest
    else findBaseGo pfx rest

/-- Embedding of `findBaseCommitForVersionSeries` : hash of the
base commit of the series, or `none`. -/
def findBaseCommitForVersionSeries (pfx : String) (history : List Commit) : Option String :=
  findBaseGo pfx history

/-- Embedding of `countWorkCommitsSince` : the number of commits in
`commitHash..HEAD` (strictly newer than the base) whose subject does not
match the version-commit pattern. -/
def countWorkCommitsSince (history : List Commit) (baseHash : String) : Nat :=
  ((history.takeWhile (fun c => decide (c.hash ≠ baseHash))).filter
    (fun c => !(isVersionCommitSubject c.subject))).length

/-- The constant `DEFAULT_CHANGELOG_COMMITS_FOR_NEW_SERIES` : the configurable
constant-commit fallback (used by the fallback changelog of the older
`bundle-mod.ts` revision). -/
def DEFAULT_CHANGELOG_COMMITS_FOR_NEW_SERIES : Nat := 10

/-- Patch-number resolution in `main`: `let patchNumber = 0;
if (baseCommitForSeries) patchNumber = countWorkCommitsSince(...)`. -/
def computePatchNumber (history : List Commit) (pfx : String) : Nat :=
  match findBaseCommitForVersionSeries pfx history with
  | some b => countWorkCommitsSince history b
  | none => 0

/- ## The version reconciliation policy -/

/-- The three-way decision of `main` (and `manageVersion`): adopt the
candidate when it is lexicographically newer, otherwise keep the current
version (both the explicit lower-patch branch and the catch-all keep
it). -/
def reconcileVersion (current cand : SemVer) : SemVer :=
  if cand.major > current.major
      ∨ (cand.major = current.major ∧ cand.minor > current.minor)
      ∨ (cand.major = current.major ∧ cand.minor = current.minor
          ∧ cand.patch > current.patch) then
    cand
  else if cand.major = current.major ∧ cand.minor = current.minor
      ∧ cand.patch < current.patch then
    current
  else
    current

/-- Strict lexicographic order on (major, minor, patch). -/
def semverLt (x y : SemVer) : Prop :=
  x.major < y.major
    ∨ (x.major = y.major
        ∧ (x.minor < y.minor ∨ (x.minor = y.minor ∧ x.patch < y.patch)))

instance (x y : SemVer) : Decidable (semverLt x y) := by
  unfold semverLt
  infer_instance

/-- Non-strict lexicographic order on (major, minor, patch). -/
def semverLe (x y : SemVer) : Prop := semverLt x y ∨ x = y

/-- Result of one resolve-and-reconcile run: the possibly extended
history, the version now recorded in the manifest, and whether the
manifest file was rewritten. -/
structure RunResult where
  history : List Commit
  version : SemVer
  wroteManifest : Bool
deriving DecidableEq

/-- One non-CI run of the version logic of `main`: compute the series
prefix from the current manifest version, resolve the series base and
patch count, reconcile, and if the adopted version differs from the
on-disk one, rewrite the manifest and create the administrative bump
commit (which touches the manifest and records the new version) on top
of the history. -/
def runVersionStep (history : List Commit) (current : SemVer) (newHash newDate : String) :
    RunResult :=
  let pfx := seriesPfx current.major current.minor
  let patchNumber := computePatchNumber history pfx
  let newVersion : SemVer := ⟨current.major, current.minor, patchNumber⟩
  let versionToUse := reconcileVersion current newVersion
  if versionToUse ≠ current then
    ⟨⟨newHash, versionCommitMessage (serializeSemVer versionToUse), (""), newDate, true,
        some (serializeSemVer versionToUse)⟩ :: history,
      versionToUse, true⟩
  else
    ⟨history, current, false⟩

/- ## The version-change timeline builder -/

/-- A hash, version and date triple: a commit where the manifest's version
string changed. -/
structure VersionChangePoint where
  hash : String
  version : String
  date : String
deriving DecidableEq

/-- The oldest-first scan of `findVersionChangeCommits`: `prev` is the
previous successfully-parsed version (`null` initially and after any
commit whose manifest content is unreadable). -/
def fvcGo : Option String → List Commit → List VersionChangePoint
  | _, [] => []
  | prev, c :: rest =>
    match c.manifestVersion with
    | some v =>
      if some v ≠ prev then ⟨c.hash, v, c.date⟩ :: fvcGo (some v) rest
      else fvcGo (some v) rest
    | none => fvcGo none rest

/-- Embedding of `findVersionChangeCommits` : walk the manifest-touching history
oldest-first (`git log --follow --reverse -- package.json`), emit a
change point whenever the parsed version differs from the previous
successfully-parsed one, and return the points newest first. -/
def findVersionChangeCommits (history : List Commit) : List VersionChangePoint :=
  (fvcGo none ((history.filter (fun c => c.touchesManifest)).reverse)).reverse

/- ## The changelog assembler -/

/-- The commits of the git range `from..to` (`to` inclusive, `from`
exclusive) on the linear newest-first history; with no `from`, all
commits from `to` back to the root. -/
def commitsInRange (history : List Commit) (fromExclusive : Option String)
    (toInclusive : String) : List Commit :=
  let upto := history.dropWhile (fun c => decide (c.hash ≠ toInclusive))
  match fromExclusive with
  | some f => upto.takeWhile (fun c => decide (c.hash ≠ f))
  | none => upto

/-- One rendered changelog section: the version and date of a change
point plus the classified entries of its interval. -/
structure ChangelogSection where
  version : String
  date : String
  entries : List (String × ClassifiedEntry)
deriving DecidableEq

/-- The historical-sections loop of `getCumulativeChangelog` (and of
`generateChangelogDataStructure`): for each change point (newest first)
classify the commits between the previous change point (exclusive) and
it (inclusive) and emit a section when entries exist or when this is the
newest change point, the script just bumped the version, and the change
point records the version just set. -/
def sectionsGo (history : List Commit) (currentVersion : String) (justUpdated : Bool) :
    Bool → List VersionChangePoint → List ChangelogSection
  | _, [] => []
  | isFirst, v :: rest =>
    let entries := getCategorizedEntries
      (commitsInRange history (rest.head?.map (fun q => q.hash)) v.hash)
    let isJustSet := justUpdated && isFirst && decide (v.version = currentVersion)
    if !entries.isEmpty || isJustSet then
      ⟨v.version, v.date, entries⟩ :: sectionsGo history currentVersion justUpdated false rest
    else
      sectionsGo history currentVersion justUpdated false rest

/-- The historical sections of the cumulative changelog. -/
def historicalChangelogSections (history : List Commit) (currentVersion : String)
    (justUpdated : Bool) : List ChangelogSection :=
  sectionsGo history currentVersion justUpdated true (findVersionChangeCommits history)

/- ## The CLI run skeleton -/

/-- The externally visible mutations of a run. -/
inductive GitEffect where
  | manifestWrite : SemVer → GitEffect
  | commitVersion : SemVer → GitEffect
  | pushBranch : GitEffect
  | tagCreate : String → GitEffect
  | tagPush : String → GitEffect
deriving DecidableEq

/-- Outcome of a run: exit code, mutations performed (in order), fatal
diagnostics, and the version the build would use. -/
structure MainOutcome where
  exitCode : Nat
  effects : List GitEffect
  errors : List String
  finalVersion : Option SemVer
deriving DecidableEq

/-- The diagnostic printed by `main` for a dirty working tree. -/
def dirtyTreeMessage : String :=
  "ERROR: Repository is dirty. Please commit or stash your changes before running the package script."

/-- The decision skeleton of `main` up to the tagging step, assuming the
git mutations themselves succeed: the dirty-tree precondition is checked
first and exits with code 1 before the manifest is even read; CI mode
reads the manifest version verbatim with no mutation; otherwise the
version step runs and its mutations (manifest write, commit, push) are
followed by tagging in release mode. -/
def mainRun (dirty isCiBuild isRelease : Bool) (history : List Commit) (current : SemVer)
    (newHash newDate : String) : MainOutcome :=
  if dirty then
    ⟨1, [], [dirtyTreeMessage], none⟩
  else if isCiBuild then
    ⟨0, [], [], some current⟩
  else
    let r := runVersionStep history current newHash newDate
    let mutation :=
      if r.wroteManifest then
        [GitEffect.manifestWrite r.version, GitEffect.commitVersion r.version,
          GitEffect.pushBranch]
      else []
    let tagName : String := ⟨'v' :: (serializeSemVer r.version).data⟩
    let tagging :=
      if isRelease then [GitEffect.tagCreate tagName, GitEffect.tagPush tagName] else []
    ⟨0, mutation ++ tagging, [], some r.version⟩

/- ## Specification-side definitions (used to state the claims) -/

/-- Each commit of the newest-first history paired with its parent
(`none` for the root). -/
def commitsWithParents : List Commit → List (Commit × Option Commit)
  | [] => []
  | [c] => [(c, none)]
  | c :: c' :: rest => (c, some c') :: commitsWithParents (c' :: rest)

/-- Specification reading of "its own version has patch component
exactly zero": the last dot-separated component of the version string is
the numeral `0`. -/
def versionPatchComponentIsZero (v : String) : Bool :=
  decide ((splitOnDot v.data).getLast? = some [('0')])

/-- Specification reading of a qualifying commit of the series walk: a
manifest-touching commit with readable version starting with the prefix,
that is the root, or whose parent's manifest version does not start with
the same prefix, or whose own patch component is exactly zero. -/
def specSeriesQualifies (pfx : String) (cp : Commit × Option Commit) : Bool :=
  cp.1.touchesManifest &&
    (match cp.1.manifestVersion with
     | some v =>
       strStartsWith v pfx &&
         (cp.2.isNone
           || !(match cp.2.bind (fun q => q.manifestVersion) with
                | some pv => strStartsWith pv pfx
                | none => false)
           || versionPatchComponentIsZero v)
     | none => false)

/-- Specification reading of the series resolver: the first (most
recent) qualifying commit of the newest-first walk. -/
def specSeriesBase (pfx : String) (history : List Commit) : Option String :=
  ((commitsWithParents history).find? (specSeriesQualifies pfx)).map (fun cp => cp.1.hash)

/-- Specification reading of one step of the timeline builder: a change
point is emitted for a commit exactly when its version parses and
differs from the version-parse status of the immediately preceding
manifest-touching commit (`none` = unreadable, which is how a reset of
the comparison baseline manifests). -/
def vcpOfPair (cp : Commit × Option String) : Option VersionChangePoint :=
  match cp.1.manifestVersion with
  | some v => if some v ≠ cp.2 then some ⟨cp.1.hash, v, cp.1.date⟩ else none
  | none => none

/-- The subject string `type(scope)!: message` (scope and bang
optional). -/
def mkConventionalSubject (ty : String) (sc : Option String) (bang : Bool) (msg : String) :
    String :=
  ⟨ty.data
    ++ (match sc with
        | some s => '(' :: (s.data ++ [(')')])
        | none => [])
    ++ (if bang then [('!')] else [])
    ++ ':' :: ' ' :: msg.data⟩


/- ## Digit and string lemmas -/

theorem natCharsRevAux_eq_digits :
    ∀ f n, n ≤ f → natCharsRevAux f n = (Nat.digits 10 n).map digitChar := by
  intro f
  induction f with
  | zero =>
    intro n hn
    interval_cases n
    simp [natCharsRevAux]
  | succ f ih =>
    intro n hn
    by_cases h0 : n = 0
    · subst h0; simp [natCharsRevAux]
    · have hpos : 0 < n := Nat.pos_of_ne_zero h0
      have hdiv : n / 10 ≤ f := by
        have : n / 10 < n := Nat.div_lt_self hpos (by norm_num)
        omega
      rw [natCharsRevAux, if_neg h0, ih (n / 10) hdiv,
        Nat.digits_def' (by norm_num : (1 : ℕ) < 10) hpos]
      simp

theorem natChars_zero : natChars 0 = [('0')] := rfl

theorem natChars_eq_digits (n : Nat) (h : n ≠ 0) :
    natChars n = ((Nat.digits 10 n).map digitChar).reverse := by
  rw [natChars, if_neg h, natCharsRevAux_eq_digits n n le_rfl]

theorem natChars_ne_nil (n : Nat) : natChars n ≠ [] := by
  by_cases h : n = 0
  · subst h; simp [natChars_zero]
  · rw [natChars_eq_digits n h]
    simp [Nat.digits_ne_nil_iff_ne_zero.mpr h]

theorem mem_natChars (n : Nat) (c : Char) (hc : c ∈ natChars n) :
    ∃ d, d < 10 ∧ c = digitChar d := by
  by_cases h : n = 0
  · subst h
    rw [natChars_zero] at hc
    simp at hc
    exact ⟨0, by norm_num, by simp [hc]; rfl⟩
  · rw [natChars_eq_digits n h] at hc
    rw [List.mem_reverse, List.mem_map] at hc
    obtain ⟨d, hd, rfl⟩ := hc
    exact ⟨d, Nat.digits_lt_base (by norm_num) hd, rfl⟩

theorem digitChar_ne_dot (d : Nat) (h : d < 10) : digitChar d ≠ '.' := by
  interval_cases d <;> decide

theorem digitChar_eq_zero_iff (d : Nat) (h : d < 10) : digitChar d = '0' ↔ d = 0 := by
  interval_cases d <;> simp <;> decide

theorem dot_not_mem_natChars (n : Nat) : '.' ∉ natChars n := by
  intro hmem
  obtain ⟨d, hd, hc⟩ := mem_natChars n _ hmem
  exact digitChar_ne_dot d hd hc.symm

theorem natChars_eq_single_zero_iff (n : Nat) : natChars n = [('0')] ↔ n = 0 := by
  constructor
  · intro h
    by_contra h0
    rw [natChars_eq_digits n h0] at h
    have hmap : (Nat.digits 10 n).map digitChar = [('0')] := by
      have := congrArg List.reverse h
      simpa using this
    match hd : Nat.digits 10 n, hmap' : (Nat.digits 10 n).map digitChar with
    | [], _ => exact (Nat.digits_ne_nil_iff_ne_zero.mpr h0) hd
    | [d], _ =>
      rw [hd] at hmap
      simp at hmap
      have hdlt : d < 10 := Nat.digits_lt_base (by norm_num) (by rw [hd]; simp)
      have : d = 0 := (digitChar_eq_zero_iff d hdlt).mp hmap
      subst this
      have := Nat.ofDigits_digits 10 n
      rw [hd] at this
      simp [Nat.ofDigits] at this
      exact h0 this.symm
    | d₁ :: d₂ :: rest, _ =>
      rw [hd] at hmap
      simp at hmap
  · intro h; subst h; rfl

theorem versionString_data (a b p : Nat) :
    (versionString a b p).data = natChars a ++ '.' :: natChars b ++ '.' :: natChars p := rfl

theorem seriesPfx_data (a b : Nat) :
    (seriesPfx a b).data = natChars a ++ '.' :: natChars b ++ [('.')] := rfl

/-- Starting-with: the serialized version starts with the series
prefix built
from the same major and minor is a prefix of the serialized version. -/
theorem startsWith_seriesPfx (a b p : Nat) :
    strStartsWith (versionString a b p) (seriesPfx a b) = true := by
  rw [strStartsWith, decide_eq_true_eq, seriesPfx_data, versionString_data]
  refine ⟨natChars p, ?_⟩
  simp

theorem natChars_reverse_of_ne_zero (p : Nat) (h : p ≠ 0) :
    (natChars p).reverse =
      digitChar (p % 10) :: (Nat.digits 10 (p / 10)).map digitChar := by
  rw [natChars_eq_digits p h, List.reverse_reverse,
    Nat.digits_def' (by norm_num : (1 : ℕ) < 10) (Nat.pos_of_ne_zero h)]
  simp

/-- Ending in dot-zero holds exactly when the patch component is
zero (for the canonical serialization of numeric components). -/
theorem strEndsWith_versionString_iff (a b p : Nat) :
    strEndsWith (versionString a b p) (".0") = true ↔ p = 0 := by
  rw [strEndsWith, decide_eq_true_eq]
  have hdata : (String.data (".0")) = ['.', ('0')] := rfl
  rw [hdata, versionString_data]
  constructor
  · rintro ⟨t, ht⟩
    by_contra hp
    by_cases hlt : p < 10
    · have hnp : natChars p = [digitChar p] := by
        rw [natChars_eq_digits p hp, Nat.digits_of_lt 10 p hp hlt]
        simp
      rw [hnp] at ht
      have h1 : (t ++ ['.', ('0')]).getLast? = some ('0') := by
        simp
      have h2 : (natChars a ++ '.' :: natChars b ++ '.' :: [digitChar p]).getLast?
          = some (digitChar p) := by
        have hgrp : natChars a ++ '.' :: natChars b ++ '.' :: [digitChar p]
            = (natChars a ++ '.' :: natChars b ++ [('.')]) ++ [digitChar p] := by
          simp
        rw [hgrp, List.getLast?_concat]
      rw [ht, h2] at h1
      have : digitChar p = ('0') := by injection h1
      exact hp ((digitChar_eq_zero_iff p hlt).mp this)
    · have hq : p / 10 ≠ 0 := by omega
      have hdig : natChars p =
          ((Nat.digits 10 (p / 10 / 10)).map digitChar).reverse
            ++ [digitChar (p / 10 % 10), digitChar (p % 10)] := by
        rw [natChars_eq_digits p hp,
          Nat.digits_def' (by norm_num : (1 : ℕ) < 10) (Nat.pos_of_ne_zero hp),
          Nat.digits_def' (by norm_num : (1 : ℕ) < 10) (Nat.pos_of_ne_zero hq)]
        simp
      rw [hdig] at ht
      have ht' : t ++ ['.', ('0')] =
          (natChars a ++ '.' :: natChars b
              ++ '.' :: ((Nat.digits 10 (p / 10 / 10)).map digitChar).reverse)
            ++ [digitChar (p / 10 % 10), digitChar (p % 10)] := by
        rw [ht]
        simp
      obtain ⟨-, heq⟩ := List.append_inj' ht' (by simp)
      have : ('.') = digitChar (p / 10 % 10) := by
        have := congrArg List.head? heq
        simpa using this
      exact digitChar_ne_dot (p / 10 % 10) (Nat.mod_lt _ (by norm_num)) this.symm
  · intro hp
    subst hp
    refine ⟨natChars a ++ '.' :: natChars b, ?_⟩
    simp [natChars_zero]

/- ## splitOnDot lemmas -/

theorem splitOnDot_ne_nil (l : List Char) : splitOnDot l ≠ [] := by
  cases l with
  | nil => simp [splitOnDot]
  | cons c rest =>
    rw [splitOnDot]
    by_cases h : c = '.'
    · simp [h]
    · rw [if_neg h]
      match splitOnDot rest with
      | [] => simp
      | g :: gs => simp

theorem splitOnDot_no_dot (l : List Char) (h : '.' ∉ l) : splitOnDot l = [l] := by
  induction l with
  | nil => rfl
  | cons c rest ih =>
    have hc : c ≠ '.' := fun hc => h (hc ▸ List.mem_cons_self c rest)
    have hrest : '.' ∉ rest := fun hm => h (List.mem_cons_of_mem c hm)
    rw [splitOnDot, if_neg hc, ih hrest]

theorem splitOnDot_append_dot (l r : List Char) (h : '.' ∉ l) :
    splitOnDot (l ++ '.' :: r) = l :: splitOnDot r := by
  induction l with
  | nil => simp [splitOnDot]
  | cons c rest ih =>
    have hc : c ≠ '.' := fun hc => h (hc ▸ List.mem_cons_self c rest)
    have hrest : '.' ∉ rest := fun hm => h (List.mem_cons_of_mem c hm)
    rw [List.cons_append, splitOnDot, if_neg hc, ih hrest]

theorem splitOnDot_versionString (a b p : Nat) :
    splitOnDot (versionString a b p).data = [natChars a, natChars b, natChars p] := by
  have h1 : (versionString a b p).data
      = natChars a ++ ('.' :: (natChars b ++ ('.' :: natChars p))) := by
    rw [versionString_data, List.append_assoc, List.cons_append]
  rw [h1, splitOnDot_append_dot _ _ (dot_not_mem_natChars a),
    splitOnDot_append_dot _ _ (dot_not_mem_natChars b),
    splitOnDot_no_dot _ (dot_not_mem_natChars p)]

theorem isDigitChar_digitChar (d : Nat) (h : d < 10) : isDigitChar (digitChar d) = true := by
  interval_cases d <;> decide

theorem isDigitGroup_natChars (n : Nat) : isDigitGroup (natChars n) = true := by
  rw [isDigitGroup, Bool.and_eq_true]
  constructor
  · simp [natChars_ne_nil n]
  · rw [List.all_eq_true]
    intro c hc
    obtain ⟨d, hd, rfl⟩ := mem_natChars n c hc
    exact isDigitChar_digitChar d hd

theorem isSemverChars_versionString (a b p : Nat) :
    isSemverChars (versionString a b p).data = true := by
  rw [isSemverChars, splitOnDot_versionString]
  simp [isDigitGroup_natChars]

/-- The commit message template instantiated at a serialized numeric
version is matched by the version-commit pattern. -/
theorem isVersionCommitSubject_template (a b p : Nat) :
    isVersionCommitSubject (versionCommitMessage (versionString a b p)) = true := by
  rw [isVersionCommitSubject, Bool.and_eq_true]
  have hdata : (versionCommitMessage (versionString a b p)).data
      = versionMsgMarker.data ++ (versionString a b p).data := rfl
  constructor
  · rw [decide_eq_true_eq, hdata]
    exact List.prefix_append _ _
  · rw [hdata, List.drop_left]
    exact isSemverChars_versionString a b p

/- ## Reconciliation lemmas -/

/-- The three-branch decision of the source is adoption exactly on
strict lexicographic increase. -/
theorem reconcileVersion_eq_ite (current cand : SemVer) :
    reconcileVersion current cand = if semverLt current cand then cand else current := by
  obtain ⟨a, b, c⟩ := current
  obtain ⟨d, e, f⟩ := cand
  dsimp only [reconcileVersion, semverLt]
  split_ifs <;> first
    | rfl
    | (exfalso; omega)

theorem reconcileVersion_self (v : SemVer) : reconcileVersion v v = v := by
  rw [reconcileVersion_eq_ite]
  have : ¬ semverLt v v := by
    obtain ⟨a, b, c⟩ := v
    dsimp only [semverLt]
    omega
  rw [if_neg this]

theorem reconcileVersion_ne_iff (current cand : SemVer) :
    reconcileVersion current cand ≠ current ↔ semverLt current cand ∧ cand ≠ current := by
  rw [reconcileVersion_eq_ite]
  by_cases h : semverLt current cand
  · rw [if_pos h]
    simp [h]
  · rw [if_neg h]
    simp [h]

/-- C2: for every current manifest version `C` and computed candidate
`N`, the reconciliation policy adopts `N` exactly when `N` is strictly
greater than `C` in lexicographic (major, minor, patch) order and keeps
`C` otherwise (in particular for an equal version and for a same-series
lower patch), and the run rewrites the manifest exactly when the adopted
version differs from the on-disk value `C`. -/
theorem versionReconciliation_adoption_and_write :
    (∀ current cand : SemVer,
      reconcileVersion current cand = if semverLt current cand then cand else current)
    ∧ (∀ (history : List Commit) (current : SemVer) (newHash newDate : String),
        (runVersionStep history current newHash newDate).wroteManifest = true
          ↔ (runVersionStep history current newHash newDate).version ≠ current) := by
  constructor
  · exact reconcileVersion_eq_ite
  · intro history current newHash newDate
    rw [runVersionStep]
    by_cases h : reconcileVersion current
        ⟨current.major, current.minor,
          computePatchNumber history (seriesPfx current.major current.minor)⟩ ≠ current
    · rw [if_pos h]
      simp [h]
    · rw [if_neg h]
      push_neg at h
      simp

/-- C10: the reconciled version is monotone - for every current version
`C` and every candidate `N` (including candidates below `C`), the
adopted version is greater than or equal to `C` in lexicographic order,
so a run never decreases the manifest version. -/
theorem reconcileVersion_monotone (current cand : SemVer) :
    semverLe current (reconcileVersion current cand) := by
  rw [reconcileVersion_eq_ite]
  by_cases h : semverLt current cand
  · rw [if_pos h]
    exact Or.inl h
  · rw [if_neg h]
    exact Or.inr rfl

/- ## Patch-count fallback (C3) -/

/-- C3 counterexample: for a series prefix never recorded in history,
patch-number resolution yields `0`, not the configured constant-commit
fallback `DEFAULT_CHANGELOG_COMMITS_FOR_NEW_SERIES = 10` (which the
sources use only for the fallback changelog length). -/
theorem patchFallback_counterexample :
    findBaseCommitForVersionSeries (seriesPfx 9 9)
        [⟨("A1"), ("chore: init"), (""), ("d1"), true, some ("0.1.0")⟩] = none
    ∧ computePatchNumber [⟨("A1"), ("chore: init"), (""), ("d1"), true, some ("0.1.0")⟩]
        (seriesPfx 9 9) = 0
    ∧ DEFAULT_CHANGELOG_COMMITS_FOR_NEW_SERIES = 10
    ∧ computePatchNumber [⟨("A1"), ("chore: init"), (""), ("d1"), true, some ("0.1.0")⟩]
        (seriesPfx 9 9) ≠ DEFAULT_CHANGELOG_COMMITS_FOR_NEW_SERIES := by
  refine ⟨by decide, by decide, rfl, by decide⟩

/-- C3 (amended): for a series prefix with no qualifying base commit in
history, patch-number resolution does not throw - it is total and falls
back to the constant patch count `0`. -/
theorem patchFallback_zero (history : List Commit) (pfx : String)
    (h : findBaseCommitForVersionSeries pfx history = none) :
    computePatchNumber history pfx = 0 := by
  rw [computePatchNumber, h]

theorem patchFallback_zero_witness :
    findBaseCommitForVersionSeries (seriesPfx 9 9)
        [⟨("B1"), ("feat: z"), (""), ("d1"), true, some ("0.1.0")⟩] = none
    ∧ computePatchNumber [⟨("B1"), ("feat: z"), (""), ("d1"), true, some ("0.1.0")⟩]
        (seriesPfx 9 9) = 0 :=
  ⟨by decide, patchFallback_zero _ _ (by decide)⟩

/- ## Dirty working tree (C9) -/

/-- C9: with a dirty working tree the run exits with status 1,
reporting the operator-facing instruction, before attempting any
mutation - no manifest write, commit, push or tag is performed. -/
theorem dirtyTree_aborts (dirty isCiBuild isRelease : Bool) (history : List Commit)
    (current : SemVer) (newHash newDate : String) (hd : dirty = true) :
    (mainRun dirty isCiBuild isRelease history current newHash newDate).exitCode = 1
    ∧ (mainRun dirty isCiBuild isRelease history current newHash newDate).effects = []
    ∧ (mainRun dirty isCiBuild isRelease history current newHash newDate).errors
        = [dirtyTreeMessage] := by
  subst hd
  exact ⟨rfl, rfl, rfl⟩

theorem dirtyTree_aborts_witness :
    (mainRun true false true [] ⟨0, 0, 26⟩ ("H") ("2024-01-01")).exitCode = 1
    ∧ (mainRun true false true [] ⟨0, 0, 26⟩ ("H") ("2024-01-01")).effects = []
    ∧ (mainRun true false true [] ⟨0, 0, 26⟩ ("H") ("2024-01-01")).errors
        = [dirtyTreeMessage] :=
  dirtyTree_aborts true false true [] ⟨0, 0, 26⟩ ("H") ("2024-01-01") rfl

/- ## Version-bump commit exclusion (C5) -/

theorem countWork_cons_excluded (c : Commit) (history : List Commit) (baseHash : String)
    (hsub : isVersionCommitSubject c.subject = true) (hne : c.hash ≠ baseHash) :
    countWorkCommitsSince (c :: history) baseHash = countWorkCommitsSince history baseHash := by
  rw [countWorkCommitsSince, countWorkCommitsSince, List.takeWhile_cons]
  rw [decide_eq_true hne]
  simp [List.filter_cons, hsub]

theorem getCategorizedEntries_cons_excluded (c : Commit) (rest : List Commit)
    (hsub : isVersionCommitSubject c.subject = true) :
    getCategorizedEntries (c :: rest) = getCategorizedEntries rest := by
  rw [getCategorizedEntries, getCategorizedEntries, List.filterMap_cons]
  rw [classifySubject, if_pos hsub]

/-- C5: the administrative commit template and the classifier's
exclusion pattern stay in lockstep - every message the reconciliation
step writes for a numeric version `M.m.p` matches the version-commit
pattern, and every commit whose subject matches the pattern contributes
nothing to the categorized changelog entries and nothing to the
work-commit patch count. -/
theorem versionCommit_lockstep (a b p : Nat) (c : Commit) (rest history : List Commit)
    (baseHash : String) (hsub : isVersionCommitSubject c.subject = true)
    (hne : c.hash ≠ baseHash) :
    isVersionCommitSubject (versionCommitMessage (versionString a b p)) = true
    ∧ getCategorizedEntries (c :: rest) = getCategorizedEntries rest
    ∧ countWorkCommitsSince (c :: history) baseHash = countWorkCommitsSince history baseHash :=
  ⟨isVersionCommitSubject_template a b p,
   getCategorizedEntries_cons_excluded c rest hsub,
   countWork_cons_excluded c history baseHash hsub hne⟩

theorem versionCommit_lockstep_witness :
    isVersionCommitSubject (versionCommitMessage (versionString 1 2 3)) = true
    ∧ getCategorizedEntries
        [⟨("X"), ("chore: Update version to 1.2.3"), (""), ("d"), false, none⟩,
         ⟨("Y"), ("feat: real work"), (""), ("d"), false, none⟩]
        = getCategorizedEntries [⟨("Y"), ("feat: real work"), (""), ("d"), false, none⟩]
    ∧ countWorkCommitsSince
        [⟨("X"), ("chore: Update version to 1.2.3"), (""), ("d"), false, none⟩,
         ⟨("Y"), ("feat: real work"), (""), ("d"), false, none⟩] ("B")
        = countWorkCommitsSince [⟨("Y"), ("feat: real work"), (""), ("d"), false, none⟩] ("B") :=
  versionCommit_lockstep 1 2 3
    ⟨("X"), ("chore: Update version to 1.2.3"), (""), ("d"), false, none⟩
    [⟨("Y"), ("feat: real work"), (""), ("d"), false, none⟩]
    [⟨("Y"), ("feat: real work"), (""), ("d"), false, none⟩]
    ("B") (by decide) (by decide)

/- ## Version-change timeline (C6) -/

theorem fvcGo_eq_filterMap (l : List Commit) : ∀ prev : Option String,
    fvcGo prev l
      = (l.zip (prev :: l.map (fun c => c.manifestVersion))).filterMap vcpOfPair := by
  induction l with
  | nil => intro prev; rfl
  | cons c rest ih =>
    intro prev
    cases hv : c.manifestVersion with
    | some v =>
      by_cases hp : some v ≠ prev
      · simp [fvcGo, hv, vcpOfPair, List.zip_cons_cons, List.filterMap_cons, hp, ih]
      · simp [fvcGo, hv, vcpOfPair, List.zip_cons_cons, List.filterMap_cons, hp, ih]
    | none =>
      simp [fvcGo, hv, vcpOfPair, List.zip_cons_cons, List.filterMap_cons, ih]

/-- C6: the timeline builder walks the manifest-touching history
oldest-first and, with the output reversed back to newest-first, emits
one change point per commit whose parsed version differs from the
version-parse status of the immediately preceding manifest-touching
commit (which is `none` - the reset baseline - whenever that commit's
manifest is missing or unparsable); in particular a linear history
recording 0.1.0, 0.1.1, 0.2.0 at commits H1 older than H2 older than H3
yields exactly the three points newest-first. -/
theorem timelineBuilder_characterization :
    (∀ history : List Commit,
      findVersionChangeCommits history
        = ((((history.filter (fun c => c.touchesManifest)).reverse).zip
              (none :: ((history.filter (fun c => c.touchesManifest)).reverse).map
                (fun c => c.manifestVersion))).filterMap vcpOfPair).reverse)
    ∧ (∀ h1 h2 h3 d1 d2 d3 s1 s2 s3 b1 b2 b3 : String,
        findVersionChangeCommits
          [⟨h3, s3, b3, d3, true, some ("0.2.0")⟩,
           ⟨h2, s2, b2, d2, true, some ("0.1.1")⟩,
           ⟨h1, s1, b1, d1, true, some ("0.1.0")⟩]
          = [⟨h3, ("0.2.0"), d3⟩, ⟨h2, ("0.1.1"), d2⟩, ⟨h1, ("0.1.0"), d1⟩]) := by
  constructor
  · intro history
    rw [findVersionChangeCommits, fvcGo_eq_filterMap]
  · intro h1 h2 h3 d1 d2 d3 s1 s2 s3 b1 b2 b3
    rfl

/- ## Changelog assembler (C8) -/

theorem sectionsGo_mem (history : List Commit) (currentVersion : String) (justUpdated : Bool)
    (vcps : List VersionChangePoint) :
    ∀ (isFirst : Bool) (s : ChangelogSection), s ∈ sectionsGo history currentVersion justUpdated isFirst vcps →
      s.entries ≠ [] ∨ (justUpdated = true ∧ s.version = currentVersion) := by
  induction vcps with
  | nil =>
    intro isFirst s hs
    simp [sectionsGo] at hs
  | cons v rest ih =>
    intro isFirst s hs
    rw [sectionsGo] at hs
    split at hs
    · rename_i hcond
      rcases List.mem_cons.mp hs with heq | hmem
      · subst heq
        rcases Bool.or_eq_true_iff.mp hcond with hne | hjust
        · left
          intro hnil
          dsimp only at hnil
          rw [hnil] at hne
          simp at hne
        · right
          have h1 := Bool.and_eq_true_iff.mp hjust
          have h2 := Bool.and_eq_true_iff.mp h1.1
          exact ⟨h2.1, of_decide_eq_true h1.2⟩
      · exact ih false s hmem
    · exact ih false s hs

/-- C8: the changelog assembler never emits a section for a historical
interval between consecutive version-change points whose classified
entries are empty, unless the run just performed the version bump and
the section's version is the one just established. -/
theorem assembler_no_empty_sections (history : List Commit) (currentVersion : String)
    (justUpdated : Bool) (s : ChangelogSection)
    (hs : s ∈ historicalChangelogSections history currentVersion justUpdated) :
    s.entries ≠ [] ∨ (justUpdated = true ∧ s.version = currentVersion) :=
  sectionsGo_mem history currentVersion justUpdated
    (findVersionChangeCommits history) true s hs

theorem assembler_no_empty_sections_witness :
    (⟨("0.1.0"), ("2024-01-01"), [(("Features"), ⟨none, ("x"), ("")⟩)]⟩ : ChangelogSection)
        ∈ historicalChangelogSections
            [⟨("A1"), ("feat: x"), (""), ("2024-01-01"), true, some ("0.1.0")⟩]
            ("0.1.0") false
    ∧ ((⟨("0.1.0"), ("2024-01-01"), [(("Features"), ⟨none, ("x"), ("")⟩)]⟩
          : ChangelogSection).entries ≠ []
        ∨ (false = true ∧ (⟨("0.1.0"), ("2024-01-01"),
            [(("Features"), ⟨none, ("x"), ("")⟩)]⟩ : ChangelogSection).version = ("0.1.0"))) :=
  ⟨by decide,
   assembler_no_empty_sections
     [⟨("A1"), ("feat: x"), (""), ("2024-01-01"), true, some ("0.1.0")⟩]
     ("0.1.0") false _ (by decide)⟩

/- ## Series resolver (C1) -/

theorem head?_isNone_eq_isEmpty (l : List Commit) : l.head?.isNone = l.isEmpty := by
  cases l <;> rfl

theorem parentMatch_bind_eq (pfx : String) (rest : List Commit) :
    (match rest.head?.bind (fun q => q.manifestVersion) with
     | some pv => strStartsWith pv pfx
     | none => false)
    = (match rest.head? with
       | none => false
       | some parent =>
         match parent.manifestVersion with
         | none => false
         | some pv => strStartsWith pv pfx) := by
  cases rest with
  | nil => rfl
  | cons q rs => cases hq : q.manifestVersion <;> simp [hq]

theorem commitsWithParents_cons (c : Commit) (rest : List Commit) :
    commitsWithParents (c :: rest) = (c, rest.head?) :: commitsWithParents rest := by
  cases rest <;> rfl

theorem commitsWithParents_fst_mem :
    ∀ (l : List Commit) (cp : Commit × Option Commit), cp ∈ commitsWithParents l → cp.1 ∈ l := by
  intro l
  induction l with
  | nil => intro cp h; simp [commitsWithParents] at h
  | cons c rest ih =>
    intro cp h
    rw [commitsWithParents_cons] at h
    rcases List.mem_cons.mp h with heq | hm
    · subst heq; exact List.mem_cons_self _ _
    · exact List.mem_cons_of_mem _ (ih cp hm)

/-- On canonical version strings, the specification's "patch component
exactly zero" coincides with the code's `endsWith(".0")` test. -/
theorem patchZero_bridge (x y z : Nat) :
    versionPatchComponentIsZero (versionString x y z)
      = strEndsWith (versionString x y z) (".0") := by
  by_cases hp : z = 0
  · subst hp
    have h1 : versionPatchComponentIsZero (versionString x y 0) = true := by
      rw [versionPatchComponentIsZero, decide_eq_true_eq, splitOnDot_versionString]
      simp [natChars_zero]
    rw [h1, (strEndsWith_versionString_iff x y 0).mpr rfl]
  · have h1 : versionPatchComponentIsZero (versionString x y z) = false := by
      apply Bool.eq_false_iff.mpr
      intro hc
      rw [versionPatchComponentIsZero, decide_eq_true_eq, splitOnDot_versionString] at hc
      simp at hc
      exact hp ((natChars_eq_single_zero_iff z).mp hc)
    have h2 : strEndsWith (versionString x y z) (".0") = false := by
      apply Bool.eq_false_iff.mpr
      intro hc
      exact hp ((strEndsWith_versionString_iff x y z).mp hc)
    rw [h1, h2]

theorem findBaseGo_eq_spec (pfx : String) (history : List Commit)
    (hcanon : ∀ c ∈ history, ∀ v, c.manifestVersion = some v →
      ∃ x y z, v = versionString x y z) :
    findBaseGo pfx history
      = ((commitsWithParents history).find? (specSeriesQualifies pfx)).map
          (fun cp => cp.1.hash) := by
  induction history with
  | nil => rfl
  | cons c rest ih =>
    have hcanon' : ∀ c' ∈ rest, ∀ v, c'.manifestVersion = some v →
        ∃ x y z, v = versionString x y z :=
      fun c' hc' => hcanon c' (List.mem_cons_of_mem c hc')
    have ihr := ih hcanon'
    rw [commitsWithParents_cons]
    by_cases ht : c.touchesManifest = true
    · cases hv : c.manifestVersion with
      | none =>
        rw [List.find?_cons_of_neg _ (by simp [specSeriesQualifies, hv]), ← ihr]
        simp [findBaseGo, ht, hv]
      | some v =>
        obtain ⟨x, y, z, hveq⟩ := hcanon c (List.mem_cons_self c rest) v hv
        by_cases hsw : strStartsWith v pfx = true
        · have hbridge : versionPatchComponentIsZero v = strEndsWith v (".0") := by
            rw [hveq]; exact patchZero_bridge x y z
          by_cases hcond : (rest.isEmpty
              || !(match rest.head? with
                   | none => false
                   | some parent =>
                     match parent.manifestVersion with
                     | none => false
                     | some pv => strStartsWith pv pfx)
              || strEndsWith v (".0")) = true
          · have hq : specSeriesQualifies pfx (c, rest.head?) = true := by
              rw [specSeriesQualifies]
              simp only [hv, ht, hsw, Bool.true_and]
              rw [head?_isNone_eq_isEmpty, parentMatch_bind_eq, hbridge]
              exact hcond
            rw [List.find?_cons_of_pos _ hq]
            simp [findBaseGo, ht, hv, hsw, hcond]
          · have hq : ¬ specSeriesQualifies pfx (c, rest.head?) = true := by
              rw [specSeriesQualifies]
              simp only [hv, ht, hsw, Bool.true_and]
              rw [head?_isNone_eq_isEmpty, parentMatch_bind_eq, hbridge]
              exact hcond
            rw [List.find?_cons_of_neg _ hq, ← ihr]
            simp [findBaseGo, ht, hv, hsw, hcond]
        · have hq : ¬ specSeriesQualifies pfx (c, rest.head?) = true := by
            simp [specSeriesQualifies, hv, ht, hsw]
          rw [List.find?_cons_of_neg _ hq, ← ihr]
          simp [findBaseGo, ht, hv, hsw]
    · have htf : c.touchesManifest = false := by
        revert ht; cases c.touchesManifest <;> simp
      have hq : ¬ specSeriesQualifies pfx (c, rest.head?) = true := by
        simp [specSeriesQualifies, htf]
      rw [List.find?_cons_of_neg _ hq, ← ihr]
      simp [findBaseGo, htf]

/-- C1: over a history whose readable manifest versions are canonical
`M.m.p` serializations, the series resolver walks the manifest-touching
history newest-first and returns the hash of the first (most recent)
commit whose version starts with the prefix and which is the root, or
whose parent's manifest version does not start with the same prefix, or
whose own patch component is exactly zero; and it returns `none`
whenever no commit's manifest version ever starts with the prefix. -/
theorem seriesResolver_firstQualifying (pfx : String) (history : List Commit)
    (hcanon : ∀ c ∈ history, ∀ v, c.manifestVersion = some v →
      ∃ x y z, v = versionString x y z) :
    findBaseCommitForVersionSeries pfx history = specSeriesBase pfx history
    ∧ ((∀ c ∈ history, ∀ v, c.manifestVersion = some v → strStartsWith v pfx = false) →
        findBaseCommitForVersionSeries pfx history = none) := by
  have hmain : findBaseCommitForVersionSeries pfx history = specSeriesBase pfx history :=
    findBaseGo_eq_spec pfx history hcanon
  refine ⟨hmain, fun hnone => ?_⟩
  rw [hmain, specSeriesBase, List.find?_eq_none.mpr ?_]
  · rfl
  · intro cp hcp hq
    have hc1 : cp.1 ∈ history := commitsWithParents_fst_mem history cp hcp
    rw [specSeriesQualifies, Bool.and_eq_true] at hq
    cases hv : cp.1.manifestVersion with
    | none => rw [hv] at hq; exact absurd hq.2 (by simp)
    | some v =>
      rw [hv, Bool.and_eq_true] at hq
      have h2 := hq.2.1
      rw [hnone cp.1 hc1 v hv] at h2
      exact absurd h2 (by simp)

/- ## C1 witness material -/

theorem seriesResolver_firstQualifying_witness :
    findBaseCommitForVersionSeries (seriesPfx 0 1)
        [⟨("C3"), ("feat: c"), (""), ("d3"), true, some ("0.1.2")⟩,
         ⟨("C2"), ("feat: b"), (""), ("d2"), true, some ("0.1.1")⟩,
         ⟨("C1"), ("chore: i"), (""), ("d1"), true, some ("0.1.0")⟩]
      = specSeriesBase (seriesPfx 0 1)
        [⟨("C3"), ("feat: c"), (""), ("d3"), true, some ("0.1.2")⟩,
         ⟨("C2"), ("feat: b"), (""), ("d2"), true, some ("0.1.1")⟩,
         ⟨("C1"), ("chore: i"), (""), ("d1"), true, some ("0.1.0")⟩] :=
  (seriesResolver_firstQualifying (seriesPfx 0 1)
    [⟨("C3"), ("feat: c"), (""), ("d3"), true, some ("0.1.2")⟩,
     ⟨("C2"), ("feat: b"), (""), ("d2"), true, some ("0.1.1")⟩,
     ⟨("C1"), ("chore: i"), (""), ("d1"), true, some ("0.1.0")⟩]
    (by
      intro c hc v hv
      fin_cases hc
      · rw [← Option.some.inj hv]
        exact ⟨0, 1, 2, by decide⟩
      · rw [← Option.some.inj hv]
        exact ⟨0, 1, 1, by decide⟩
      · rw [← Option.some.inj hv]
        exact ⟨0, 1, 0, by decide⟩)).1

/- ## Commit classifier (C7) -/

theorem isEmpty_false_of_ne_nil {α : Type} {l : List α} (h : l ≠ []) : l.isEmpty = false := by
  cases l
  · exact absurd rfl h
  · rfl

theorem takeWhile_append_stop (p : Char → Bool) (l₁ : List Char) (c : Char) (l₂ : List Char)
    (h : ∀ a ∈ l₁, p a = true) (hc : p c = false) :
    (l₁ ++ c :: l₂).takeWhile p = l₁ ∧ (l₁ ++ c :: l₂).dropWhile p = c :: l₂ := by
  induction l₁ with
  | nil => simp [List.takeWhile_cons, List.dropWhile_cons, hc]
  | cons a rest ih =>
    have ha : p a = true := h a (List.mem_cons_self a rest)
    obtain ⟨h1, h2⟩ := ih (fun b hb => h b (List.mem_cons_of_mem a hb))
    simp [List.takeWhile_cons, List.dropWhile_cons, ha, h1, h2]

theorem scopeSplit_paren (sl rest : List Char) (hne : sl ≠ []) (hnp : (')') ∉ sl) :
    scopeSplit ('(' :: (sl ++ ')' :: rest)) = (some sl, rest) := by
  obtain ⟨h1, h2⟩ := takeWhile_append_stop (fun c => decide (c ≠ (')'))) sl (')') rest
    (fun a ha => decide_eq_true (fun he => hnp (he ▸ ha))) (by decide)
  simp only [scopeSplit, h1, h2]
  rw [if_neg]
  simp [isEmpty_false_of_ne_nil hne]

/-- Parsing a well-formed assembled subject recovers its pieces: the
type is a non-empty word, the scope (when present) is non-empty and
contains no closing parenthesis. -/
theorem parseConventional_mk (ty : String) (sc : Option String) (bang : Bool) (msg : String)
    (htynil : ty.data ≠ []) (htyw : ∀ c ∈ ty.data, isWordChar c = true)
    (hsc : ∀ s, sc = some s → s.data ≠ [] ∧ (')') ∉ s.data) :
    parseConventional (mkConventionalSubject ty sc bang msg) = some ⟨ty, sc, bang, msg⟩ := by
  obtain ⟨tyl⟩ := ty
  obtain ⟨msgl⟩ := msg
  rcases sc with _ | ⟨⟨sl⟩⟩
  · cases bang
    · have hD : (mkConventionalSubject ⟨tyl⟩ none false ⟨msgl⟩).data
          = tyl ++ ':' :: ' ' :: msgl := by
        simp [mkConventionalSubject]
      obtain ⟨hT, hW⟩ := takeWhile_append_stop isWordChar tyl (':') (' ' :: msgl)
        htyw (by decide)
      simp only [parseConventional, hD, hT, hW, isEmpty_false_of_ne_nil htynil]
      rfl
    · have hD : (mkConventionalSubject ⟨tyl⟩ none true ⟨msgl⟩).data
          = tyl ++ '!' :: ':' :: ' ' :: msgl := by
        simp [mkConventionalSubject]
      obtain ⟨hT, hW⟩ := takeWhile_append_stop isWordChar tyl ('!') (':' :: ' ' :: msgl)
        htyw (by decide)
      simp only [parseConventional, hD, hT, hW, isEmpty_false_of_ne_nil htynil]
      rfl
  · obtain ⟨hsnil, hsnp⟩ := hsc ⟨sl⟩ rfl
    cases bang
    · have hD : (mkConventionalSubject ⟨tyl⟩ (some ⟨sl⟩) false ⟨msgl⟩).data
          = tyl ++ '(' :: (sl ++ ')' :: ':' :: ' ' :: msgl) := by
        simp [mkConventionalSubject]
      obtain ⟨hT, hW⟩ := takeWhile_append_stop isWordChar tyl ('(')
        (sl ++ ')' :: ':' :: ' ' :: msgl) htyw (by decide)
      simp only [parseConventional, hD, hT, hW, isEmpty_false_of_ne_nil htynil,
        scopeSplit_paren sl _ hsnil hsnp]
      rfl
    · have hD : (mkConventionalSubject ⟨tyl⟩ (some ⟨sl⟩) true ⟨msgl⟩).data
          = tyl ++ '(' :: (sl ++ ')' :: '!' :: ':' :: ' ' :: msgl) := by
        simp [mkConventionalSubject]
      obtain ⟨hT, hW⟩ := takeWhile_append_stop isWordChar tyl ('(')
        (sl ++ ')' :: '!' :: ':' :: ' ' :: msgl) htyw (by decide)
      simp only [parseConventional, hD, hT, hW, isEmpty_false_of_ne_nil htynil,
        scopeSplit_paren sl _ hsnil hsnp]
      rfl

/-- A subject whose conventional parse fails cannot be an administrative
version-bump subject (those always parse, with type `chore`). -/
theorem parse_none_not_versionCommit (subj : String) (h : parseConventional subj = none) :
    isVersionCommitSubject subj = false := by
  apply Bool.eq_false_iff.mpr
  intro hv
  rw [isVersionCommitSubject, Bool.and_eq_true, decide_eq_true_eq] at hv
  obtain ⟨⟨t, ht⟩, -⟩ := hv
  obtain ⟨sd⟩ := subj
  have ht' : versionMsgMarker.data ++ t = sd := ht
  subst ht'
  have hmk := parseConventional_mk (("chore")) none false (⟨(("Update version to ").data) ++ t⟩)
    (by decide) (by decide) (fun s hs => Option.noConfusion hs)
  have heqsubj : (⟨versionMsgMarker.data ++ t⟩ : String)
      = mkConventionalSubject (("chore")) none false
          (⟨(("Update version to ").data) ++ t⟩) := rfl
  rw [heqsubj, hmk] at h
  cases h

/-- C7 counterexample: the subject `chore: Update version to 1.2.3` is
of the form `type: message` (type `chore`, message
`Update version to 1.2.3`), yet the classifier excludes it instead of
producing the `Changes` entry the mapping table would dictate. -/
theorem classifier_counterexample :
    mkConventionalSubject (("chore")) none false (("Update version to 1.2.3"))
        = ("chore: Update version to 1.2.3")
    ∧ parseConventional (("chore: Update version to 1.2.3"))
        = some ⟨("chore"), none, false, ("Update version to 1.2.3")⟩
    ∧ classifySubject (("chore: Update version to 1.2.3")) ("") = none
    ∧ classifySubject (("chore: Update version to 1.2.3")) ("")
        ≠ some ((("Changes")), ⟨none, ("Update version to 1.2.3"), ("")⟩) := by
  refine ⟨by decide, by decide, by decide, by decide⟩

/-- C7 (amended): for every commit subject of the form
`type(scope)!: message` (scope and bang optional) that does not match
the administrative version-bump pattern, the classifier extracts the
type, optional scope and free-text message and maps the type through
the fixed table (defaulting to `Changes`); a subject that does not match
the convention becomes, whole, the message under the default category;
and `feat(ui): add button` yields category `Features`, scope `ui`,
message `add button`. -/
theorem classifier_extraction (ty s msg body : String) (bang : Bool)
    (htynil : ty.data ≠ []) (htyw : ∀ c ∈ ty.data, isWordChar c = true)
    (hsnil : s.data ≠ []) (hsnp : (')') ∉ s.data)
    (hv1 : isVersionCommitSubject (mkConventionalSubject ty (some s) bang msg) = false)
    (hv2 : isVersionCommitSubject (mkConventionalSubject ty none bang msg) = false) :
    classifySubject (mkConventionalSubject ty (some s) bang msg) body
        = some (categoryForType ty, ⟨some s, msg, body⟩)
    ∧ classifySubject (mkConventionalSubject ty none bang msg) body
        = some (categoryForType ty, ⟨none, msg, body⟩)
    ∧ (∀ subj bd : String, parseConventional subj = none →
        classifySubject subj bd = some ((("Changes")), ⟨none, subj, bd⟩))
    ∧ classifySubject (("feat(ui): add button")) body
        = some ((("Features")), ⟨some ("ui"), ("add button"), body⟩) := by
  refine ⟨?_, ?_, ?_, ?_⟩
  · simp only [classifySubject, hv1,
      parseConventional_mk ty (some s) bang msg htynil htyw
        (fun q hq => by rw [← Option.some.inj hq]; exact ⟨hsnil, hsnp⟩)]
    rfl
  · simp only [classifySubject, hv2,
      parseConventional_mk ty none bang msg htynil htyw
        (fun q hq => Option.noConfusion hq)]
    rfl
  · intro subj bd hparse
    simp only [classifySubject, parse_none_not_versionCommit subj hparse, hparse]
    rfl
  · rfl

theorem classifier_extraction_witness :
    classifySubject (mkConventionalSubject ("feat") (some ("ui")) false ("add button")) ("b")
        = some (categoryForType ("feat"), ⟨some ("ui"), ("add button"), ("b")⟩)
    ∧ classifySubject (mkConventionalSubject ("feat") none false ("add button")) ("b")
        = some (categoryForType ("feat"), ⟨none, ("add button"), ("b")⟩)
    ∧ (∀ subj bd : String, parseConventional subj = none →
        classifySubject subj bd = some ((("Changes")), ⟨none, subj, bd⟩))
    ∧ classifySubject (("feat(ui): add button")) ("b")
        = some ((("Features")), ⟨some ("ui"), ("add button"), ("b")⟩) :=
  classifier_extraction ("feat") ("ui") ("add button") ("b") false
    (by decide) (by decide) (by decide) (by decide) (by decide) (by decide)

/- ## Idempotence of the reconciliation run (C4) -/

theorem findBaseGo_mem (pfx : String) (l : List Commit) (h : String)
    (hf : findBaseGo pfx l = some h) : h ∈ l.map (fun c => c.hash) := by
  induction l with
  | nil => cases hf
  | cons c rest ih =>
    simp only [findBaseGo] at hf
    split at hf
    · split at hf
      · exact List.mem_cons_of_mem _ (ih hf)
      · split at hf
        · split at hf
          · injection hf with h2
            rw [← h2]
            simp
          · exact List.mem_cons_of_mem _ (ih hf)
        · exact List.mem_cons_of_mem _ (ih hf)
    · exact List.mem_cons_of_mem _ (ih hf)

theorem findBaseGo_cons_skip (pfx : String) (c : Commit) (rest : List Commit)
    (ht : c.touchesManifest = true) (v : String) (hv : c.manifestVersion = some v)
    (hsw : strStartsWith v pfx = true)
    (hrest : rest ≠ [])
    (hpm : ∃ parent, rest.head? = some parent ∧
        ∃ pv, parent.manifestVersion = some pv ∧ strStartsWith pv pfx = true)
    (hend : strEndsWith v (".0") = false) :
    findBaseGo pfx (c :: rest) = findBaseGo pfx rest := by
  obtain ⟨parent, hp, pv, hpv, hpsw⟩ := hpm
  simp only [findBaseGo, ht, hv, hsw, hp, hpv, hpsw, hend,
    isEmpty_false_of_ne_nil hrest]
  simp

/-- C4: the version reconciliation run is idempotent - running
resolve-and-reconcile on a clean history (whose head records the current
manifest version) and then running it again, with no new commits other
than the administrative bump commit the first run may have created,
yields the same final version both times, and the second run performs no
manifest write: the bump commit is excluded from the patch count, so the
recomputed candidate equals the recorded version. -/
theorem runVersionStep_idempotent (history : List Commit) (current : SemVer)
    (hashA dateA hashB dateB : String)
    (hhead : history.head?.bind (fun c => c.manifestVersion) = some (serializeSemVer current))
    (hfresh : hashA ∉ history.map (fun c => c.hash)) :
    (runVersionStep (runVersionStep history current hashA dateA).history
        (runVersionStep history current hashA dateA).version hashB dateB).version
      = (runVersionStep history current hashA dateA).version
    ∧ (runVersionStep (runVersionStep history current hashA dateA).history
        (runVersionStep history current hashA dateA).version hashB dateB).wroteManifest
      = false := by
  obtain ⟨M, m, p⟩ := current
  cases history with
  | nil => simp at hhead
  | cons hd tl =>
  have hhead' : hd.manifestVersion = some (serializeSemVer ⟨M, m, p⟩) := by
    simpa using hhead
  obtain ⟨k, hk⟩ : ∃ k, computePatchNumber (hd :: tl) (seriesPfx M m) = k := ⟨_, rfl⟩
  by_cases hw : reconcileVersion ⟨M, m, p⟩ ⟨M, m, k⟩ = ⟨M, m, p⟩
  · have hr1 : runVersionStep (hd :: tl) ⟨M, m, p⟩ hashA dateA
        = ⟨hd :: tl, ⟨M, m, p⟩, false⟩ := by
      simp only [runVersionStep]
      try dsimp only
      rw [hk]
      rw [if_neg (fun hne => hne hw)]
    have hr2 : runVersionStep (hd :: tl) ⟨M, m, p⟩ hashB dateB
        = ⟨hd :: tl, ⟨M, m, p⟩, false⟩ := by
      simp only [runVersionStep]
      try dsimp only
      rw [hk]
      rw [if_neg (fun hne => hne hw)]
    rw [hr1]
    try dsimp only
    rw [hr2]
    exact ⟨rfl, rfl⟩
  · have hlt : semverLt ⟨M, m, p⟩ ⟨M, m, k⟩ :=
      ((reconcileVersion_ne_iff ⟨M, m, p⟩ ⟨M, m, k⟩).mp hw).1
    have hVN : reconcileVersion ⟨M, m, p⟩ ⟨M, m, k⟩ = ⟨M, m, k⟩ := by
      rw [reconcileVersion_eq_ite, if_pos hlt]
    have hpk : p < k := by
      have hlt' := hlt
      simp only [semverLt] at hlt'
      omega
    have hk0 : k ≠ 0 := by omega
    cases hbc : findBaseCommitForVersionSeries (seriesPfx M m) (hd :: tl) with
    | none =>
      exfalso
      simp only [computePatchNumber, hbc] at hk
      omega
    | some b =>
    have hkeq : countWorkCommitsSince (hd :: tl) b = k := by
      simp only [computePatchNumber, hbc] at hk
      exact hk
    have hmem : b ∈ (hd :: tl).map (fun c => c.hash) :=
      findBaseGo_mem (seriesPfx M m) (hd :: tl) b hbc
    have hbne : hashA ≠ b := fun he => hfresh (he ▸ hmem)
    have hne : (⟨M, m, k⟩ : SemVer) ≠ ⟨M, m, p⟩ := fun he => hw (hVN.trans he)
    have hr1 : runVersionStep (hd :: tl) ⟨M, m, p⟩ hashA dateA
        = ⟨⟨hashA, versionCommitMessage (serializeSemVer ⟨M, m, k⟩), (""), dateA, true,
            some (serializeSemVer ⟨M, m, k⟩)⟩ :: hd :: tl, ⟨M, m, k⟩, true⟩ := by
      simp only [runVersionStep]
      try dsimp only
      rw [hk, hVN]
      rw [if_pos hne]
    rw [hr1]
    try dsimp only
    have hfb2 : findBaseGo (seriesPfx M m)
        (⟨hashA, versionCommitMessage (serializeSemVer ⟨M, m, k⟩), (""), dateA, true,
            some (serializeSemVer ⟨M, m, k⟩)⟩ :: hd :: tl) = some b := by
      rw [findBaseGo_cons_skip (seriesPfx M m) _ (hd :: tl) rfl
        (serializeSemVer ⟨M, m, k⟩) rfl
        (startsWith_seriesPfx M m k)
        (by simp)
        ⟨hd, rfl, serializeSemVer ⟨M, m, p⟩, hhead', startsWith_seriesPfx M m p⟩
        (Bool.eq_false_iff.mpr
          (fun hc => hk0 ((strEndsWith_versionString_iff M m k).mp hc)))]
      exact hbc
    have hcount2 : countWorkCommitsSince
        (⟨hashA, versionCommitMessage (serializeSemVer ⟨M, m, k⟩), (""), dateA, true,
            some (serializeSemVer ⟨M, m, k⟩)⟩ :: hd :: tl) b
        = countWorkCommitsSince (hd :: tl) b :=
      countWork_cons_excluded _ (hd :: tl) b (isVersionCommitSubject_template M m k) hbne
    have hk2 : computePatchNumber
        (⟨hashA, versionCommitMessage (serializeSemVer ⟨M, m, k⟩), (""), dateA, true,
            some (serializeSemVer ⟨M, m, k⟩)⟩ :: hd :: tl) (seriesPfx M m) = k := by
      simp only [computePatchNumber, findBaseCommitForVersionSeries, hfb2]
      rw [hcount2, hkeq]
    have hr2 : runVersionStep
        (⟨hashA, versionCommitMessage (serializeSemVer ⟨M, m, k⟩), (""), dateA, true,
            some (serializeSemVer ⟨M, m, k⟩)⟩ :: hd :: tl) ⟨M, m, k⟩ hashB dateB
        = ⟨⟨hashA, versionCommitMessage (serializeSemVer ⟨M, m, k⟩), (""), dateA, true,
            some (serializeSemVer ⟨M, m, k⟩)⟩ :: hd :: tl, ⟨M, m, k⟩, false⟩ := by
      simp only [runVersionStep]
      try dsimp only
      rw [hk2, reconcileVersion_self]
      rw [if_neg (fun hne2 => hne2 rfl)]
    rw [hr2]
    exact ⟨rfl, rfl⟩

theorem runVersionStep_idempotent_witness :
    (runVersionStep
        (runVersionStep
          [⟨("A2"), ("feat: y"), (""), ("d2"), false, some ("0.1.0")⟩,
           ⟨("A1"), ("chore: init"), (""), ("d1"), true, some ("0.1.0")⟩]
          ⟨0, 1, 0⟩ ("F1") ("d3")).history
        (runVersionStep
          [⟨("A2"), ("feat: y"), (""), ("d2"), false, some ("0.1.0")⟩,
           ⟨("A1"), ("chore: init"), (""), ("d1"), true, some ("0.1.0")⟩]
          ⟨0, 1, 0⟩ ("F1") ("d3")).version ("F2") ("d4")).version
      = (runVersionStep
          [⟨("A2"), ("feat: y"), (""), ("d2"), false, some ("0.1.0")⟩,
           ⟨("A1"), ("chore: init"), (""), ("d1"), true, some ("0.1.0")⟩]
          ⟨0, 1, 0⟩ ("F1") ("d3")).version
    ∧ (runVersionStep
        (runVersionStep
          [⟨("A2"), ("feat: y"), (""), ("d2"), false, some ("0.1.0")⟩,
           ⟨("A1"), ("chore: init"), (""), ("d1"), true, some ("0.1.0")⟩]
          ⟨0, 1, 0⟩ ("F1") ("d3")).history
        (runVersionStep
          [⟨("A2"), ("feat: y"), (""), ("d2"), false, some ("0.1.0")⟩,
           ⟨("A1"), ("chore: init"), (""), ("d1"), true, some ("0.1.0")⟩]
          ⟨0, 1, 0⟩ ("F1") ("d3")).version ("F2") ("d4")).wroteManifest = false :=
  runVersionStep_idempotent
    [⟨("A2"), ("feat: y"), (""), ("d2"), false, some ("0.1.0")⟩,
     ⟨("A1"), ("chore: init"), (""), ("d1"), true, some ("0.1.0")⟩]
    ⟨0, 1, 0⟩ ("F1") ("d3") ("F2") ("d4") (by decide) (by decide)
